import Mathlib

/-!
Verification of the change-detection subsystem of a CMS content
export/import pipeline (`scripts/lib/checksum.js`): canonicalization of
structured values into SHA-256 digests, digest-set building, and the
differ that compares two digest sets.

The JavaScript source is shallowly embedded: byte sequences are
`List Nat` (each element `< 256`), JavaScript strings are Lean `String`,
structured (JSON-like) values are the inductive `Json`, and JavaScript
objects are association lists in property-insertion order.  JavaScript
property-enumeration order (array-index keys first, in ascending numeric
order, then the others in insertion order) is modelled explicitly by
`jsOrderEntries`.
-/

namespace Checksum

/-! ### SHA-256 over byte lists (Node `crypto.createHash('sha256')`) -/

/-- `2^32`, the word modulus of SHA-256. -/
def w32 : Nat := 4294967296

/-- Rotate a 32-bit word right by `n` bit positions. -/
def rotr (n x : Nat) : Nat := ((x >>> n) ||| (x <<< (32 - n))) % w32

/-- SHA-256 `Σ0`. -/
def bigSigma0 (x : Nat) : Nat := (rotr 2 x) ^^^ (rotr 13 x) ^^^ (rotr 22 x)

/-- SHA-256 `Σ1`. -/
def bigSigma1 (x : Nat) : Nat := (rotr 6 x) ^^^ (rotr 11 x) ^^^ (rotr 25 x)

/-- SHA-256 `σ0`. -/
def smallSigma0 (x : Nat) : Nat := (rotr 7 x) ^^^ (rotr 18 x) ^^^ (x >>> 3)

/-- SHA-256 `σ1`. -/
def smallSigma1 (x : Nat) : Nat := (rotr 17 x) ^^^ (rotr 19 x) ^^^ (x >>> 10)

/-- The 64 SHA-256 round constants. -/
def kConst : List Nat :=
  [1116352408, 1899447441, 3049323471, 3921009573, 961987163,
   1508970993, 2453635748, 2870763221, 3624381080, 310598401,
   607225278, 1426881987, 1925078388, 2162078206, 2614888103,
   3248222580, 3835390401, 4022224774, 264347078, 604807628,
   770255983, 1249150122, 1555081692, 1996064986, 2554220882,
   2821834349, 2952996808, 3210313671, 3336571891, 3584528711,
   113926993, 338241895, 666307205, 773529912, 1294757372,
   1396182291, 1695183700, 1986661051, 2177026350, 2456956037,
   2730485921, 2820302411, 3259730800, 3345764771, 3516065817,
   3600352804, 4094571909, 275423344, 430227734, 506948616,
   659060556, 883997877, 958139571, 1322822218, 1537002063,
   1747873779, 1955562222, 2024104815, 2227730452, 2361852424,
   2428436474, 2756734187, 3204031479, 3329325298]

/-- Big-endian bytes of `n`, `k` bytes wide. -/
def beBytes : Nat → Nat → List Nat
  | 0, _ => []
  | k + 1, n => beBytes k (n / 256) ++ [n % 256]

/-- SHA-256 message padding: append `0x80`, zero bytes up to 56 mod 64,
then the bit length as an 8-byte big-endian integer. -/
def padMessage (msg : List Nat) : List Nat :=
  msg ++ [0x80] ++ List.replicate ((119 - msg.length % 64) % 64) 0 ++ beBytes 8 (msg.length * 8)

/-- Split a byte list into 64-byte blocks; the fuel argument (any bound on
the number of blocks, e.g. the list length) keeps the recursion structural
so that the kernel can evaluate it. -/
def chunks64F : Nat → List Nat → List (List Nat)
  | 0, _ => []
  | _, [] => []
  | fuel + 1, a :: rest => ((a :: rest).take 64) :: chunks64F fuel ((a :: rest).drop 64)

/-- Split a byte list into 64-byte blocks. -/
def chunks64 (l : List Nat) : List (List Nat) := chunks64F (l.length + 1) l

/-- Combine bytes into big-endian 32-bit words. -/
def words32 : List Nat → List Nat
  | b0 :: b1 :: b2 :: b3 :: rest => (((b0 * 256 + b1) * 256 + b2) * 256 + b3) :: words32 rest
  | _ => []

/-- Append the next word of the SHA-256 message schedule. -/
def extendStep (w : List Nat) : List Nat :=
  w ++ [(smallSigma1 (w.getD (w.length - 2) 0) + w.getD (w.length - 7) 0 +
    smallSigma0 (w.getD (w.length - 15) 0) + w.getD (w.length - 16) 0) % w32]

/-- Extend the 16-word message schedule to 64 words (48 extension steps). -/
def extendSchedule (w : List Nat) : List Nat := Nat.iterate extendStep 48 w

/-- The eight 32-bit working variables of the SHA-256 compression function. -/
structure Hash8 where
  a : Nat
  b : Nat
  c : Nat
  d : Nat
  e : Nat
  f : Nat
  g : Nat
  hh : Nat

/-- Initial SHA-256 hash value. -/
def initH : Hash8 :=
  ⟨1779033703, 3144134277, 1013904242, 2773480762,
   1359893119, 2600822924, 528734635, 1541459225⟩

/-- One SHA-256 compression round, fed a `(k, w)` constant/schedule pair. -/
def shaRound (s : Hash8) (kw : Nat × Nat) : Hash8 :=
  let ch := (s.e &&& s.f) ^^^ ((s.e ^^^ 0xffffffff) &&& s.g)
  let t1 := (s.hh + bigSigma1 s.e + ch + kw.1 + kw.2) % w32
  let maj := (s.a &&& s.b) ^^^ (s.a &&& s.c) ^^^ (s.b &&& s.c)
  let t2 := (bigSigma0 s.a + maj) % w32
  ⟨(t1 + t2) % w32, s.a, s.b, s.c, (s.d + t1) % w32, s.e, s.f, s.g⟩

/-- Compress one 64-byte block into the running hash. -/
def compressBlock (h : Hash8) (block : List Nat) : Hash8 :=
  let w := extendSchedule (words32 block)
  let s := (kConst.zip w).foldl shaRound h
  ⟨(h.a + s.a) % w32, (h.b + s.b) % w32, (h.c + s.c) % w32, (h.d + s.d) % w32,
   (h.e + s.e) % w32, (h.f + s.f) % w32, (h.g + s.g) % w32, (h.hh + s.hh) % w32⟩

/-- SHA-256 of a byte list, as the eight final hash words. -/
def sha256Words (msg : List Nat) : Hash8 :=
  (chunks64 (padMessage msg)).foldl compressBlock initH

/-- Lowercase hexadecimal digit. -/
def hexDigit (n : Nat) : Char := if n < 10 then Char.ofNat (48 + n) else Char.ofNat (87 + n)

/-- Eight lowercase hex digits of a 32-bit word. -/
def hex8 (n : Nat) : List Char :=
  [hexDigit ((n >>> 28) % 16), hexDigit ((n >>> 24) % 16), hexDigit ((n >>> 20) % 16),
   hexDigit ((n >>> 16) % 16), hexDigit ((n >>> 12) % 16), hexDigit ((n >>> 8) % 16),
   hexDigit ((n >>> 4) % 16), hexDigit (n % 16)]

/-- SHA-256 of a byte list as a 64-character lowercase hex string — the
`digest('hex')` form used throughout `checksum.js`. -/
def sha256Hex (msg : List Nat) : String :=
  let s := sha256Words msg
  String.mk (hex8 s.a ++ hex8 s.b ++ hex8 s.c ++ hex8 s.d ++
    hex8 s.e ++ hex8 s.f ++ hex8 s.g ++ hex8 s.hh)

/-- UTF-8 encoding of one character (code point). -/
def utf8Char (c : Char) : List Nat :=
  let n := c.toNat
  if n < 128 then [n]
  else if n < 2048 then [192 + n / 64, 128 + n % 64]
  else if n < 65536 then [224 + n / 4096, 128 + (n / 64) % 64, 128 + n % 64]
  else [240 + n / 262144, 128 + (n / 4096) % 64, 128 + (n / 64) % 64, 128 + n % 64]

/-- UTF-8 encoding of a string as a byte list. -/
def utf8Bytes (s : String) : List Nat := s.data.foldr (fun c acc => utf8Char c ++ acc) []

/-- `hashString` (checksum.js line 10): SHA-256 hex digest of a string,
`update(content, 'utf8')` hashing its UTF-8 encoding. -/
def hashString (content : String) : String := sha256Hex (utf8Bytes content)

/-- The pure core of `hashFile` (checksum.js line 19): SHA-256 hex digest of
a file's raw bytes (the `Buffer` read from disk). -/
def hashFileBytes (content : List Nat) : String := sha256Hex content

/-! ### JSON-like structured values

A JavaScript object is embedded as its property table: an association
list in property-insertion order, with unique keys for every value
actually reachable from JavaScript (`jsonWF` below). -/

/-- JSON-like structured values: mappings, sequences, scalars, null. -/
inductive Json where
  | null : Json
  | bool (b : Bool) : Json
  | num (n : Int) : Json
  | str (s : String) : Json
  | arr (elems : List Json) : Json
  | obj (entries : List (String × Json)) : Json

/-- ASCII decimal digit test. -/
def isDigitChar (c : Char) : Bool := 48 ≤ c.toNat && c.toNat ≤ 57

/-- Numeric value of a digit string. -/
def digitsToNat (l : List Char) : Nat := l.foldl (fun a c => a * 10 + (c.toNat - 48)) 0

/-- ECMAScript array-index test: the string is the canonical decimal form
of an integer `0 ≤ n < 2^32 - 1` (no leading zero except `"0"` itself).
Such property keys are enumerated before all others, in ascending numeric
order. -/
def isArrayIndex (s : String) : Bool :=
  !s.data.isEmpty && s.data.all isDigitChar &&
    (s == "0" || !(s.data.head? == some '0')) && digitsToNat s.data < 4294967295

/-- Key order on entries: numeric order of array-index keys. -/
def idxLe {α : Type} (p q : String × α) : Prop := digitsToNat p.1.data ≤ digitsToNat q.1.data

instance idxLeDec {α : Type} : DecidableRel (@idxLe α) :=
  fun p q => inferInstanceAs (Decidable (digitsToNat p.1.data ≤ digitsToNat q.1.data))

/-- Lexicographic comparison of character lists by code point — the
comparison performed by JavaScript's default `Array.prototype.sort`
comparator on strings. -/
def lexLe : List Char → List Char → Bool
  | [], _ => true
  | _ :: _, [] => false
  | a :: as, b :: bs =>
    if a.toNat < b.toNat then true
    else if b.toNat < a.toNat then false
    else lexLe as bs

/-- Lexicographic string comparison (JavaScript `<=` on strings). -/
def strLe (s t : String) : Bool := lexLe s.data t.data

/-- Key order on entries: lexicographic order of the keys. -/
def keyLe {α : Type} (p q : String × α) : Prop := strLe p.1 q.1 = true

instance keyLeDec {α : Type} : DecidableRel (@keyLe α) :=
  fun p q => inferInstanceAs (Decidable (strLe p.1 q.1 = true))

instance idxLeTotal {α : Type} : IsTotal (String × α) idxLe :=
  ⟨fun p q => Nat.le_total (digitsToNat p.1.data) (digitsToNat q.1.data)⟩

instance idxLeTrans {α : Type} : IsTrans (String × α) idxLe :=
  ⟨fun _ _ _ h1 h2 => Nat.le_trans h1 h2⟩

theorem lexLe_total : ∀ a b : List Char, lexLe a b = true ∨ lexLe b a = true := by
  intro a
  induction a with
  | nil => intro b; left; rfl
  | cons x xs ih =>
    intro b
    cases b with
    | nil => right; rfl
    | cons y ys =>
      simp only [lexLe]
      rcases Nat.lt_trichotomy x.toNat y.toNat with h | h | h
      · left; simp [h]
      · have h1 : ¬ x.toNat < y.toNat := by omega
        have h2 : ¬ y.toNat < x.toNat := by omega
        simpa [h1, h2] using ih ys
      · right; simp [h]

theorem lexLe_trans :
    ∀ a b c : List Char, lexLe a b = true → lexLe b c = true → lexLe a c = true := by
  intro a
  induction a with
  | nil => intro b c _ _; rfl
  | cons x xs ih =>
    intro b c hab hbc
    cases b with
    | nil => simp [lexLe] at hab
    | cons y ys =>
      cases c with
      | nil => simp [lexLe] at hbc
      | cons z zs =>
        simp only [lexLe] at hab hbc ⊢
        by_cases hxy : x.toNat < y.toNat
        · by_cases hyz : y.toNat < z.toNat
          · have : x.toNat < z.toNat := by omega
            simp [this]
          · by_cases hzy : z.toNat < y.toNat
            · simp [hxy, hyz, hzy] at hbc
            · have : x.toNat < z.toNat := by omega
              simp [this]
        · by_cases hyx : y.toNat < x.toNat
          · simp [hxy, hyx] at hab
          · by_cases hyz : y.toNat < z.toNat
            · have : x.toNat < z.toNat := by omega
              simp [this]
            · by_cases hzy : z.toNat < y.toNat
              · simp [hyz, hzy] at hbc
              · have h1 : ¬ x.toNat < z.toNat := by omega
                have h2 : ¬ z.toNat < x.toNat := by omega
                simp only [hxy, hyx, if_neg, if_false] at hab
                simp only [hyz, hzy, if_neg, if_false] at hbc
                simp only [h1, h2, if_neg, if_false]
                exact ih ys zs (by simpa using hab) (by simpa using hbc)

theorem lexLe_antisymm : ∀ a b : List Char, lexLe a b = true → lexLe b a = true → a = b := by
  intro a
  induction a with
  | nil =>
    intro b _ hba
    cases b with
    | nil => rfl
    | cons y ys => simp [lexLe] at hba
  | cons x xs ih =>
    intro b hab hba
    cases b with
    | nil => simp [lexLe] at hab
    | cons y ys =>
      simp only [lexLe] at hab hba
      by_cases hxy : x.toNat < y.toNat
      · have : ¬ y.toNat < x.toNat := by omega
        simp [hxy, this] at hba
      · by_cases hyx : y.toNat < x.toNat
        · simp [hxy, hyx] at hab
        · have hx : x = y := by
            have hn : x.toNat = y.toNat := by omega
            apply Char.eq_of_val_eq
            apply UInt32.eq_of_val_eq
            exact Fin.ext hn
          subst hx
          have : xs = ys := by
            apply ih
            · simpa [hxy] using hab
            · simpa [hxy] using hba
          rw [this]

theorem strLe_antisymm {s t : String} (h1 : strLe s t = true) (h2 : strLe t s = true) :
    s = t := by
  cases s with
  | mk a =>
    cases t with
    | mk b =>
      have : a = b := lexLe_antisymm a b h1 h2
      rw [this]

instance keyLeTotal {α : Type} : IsTotal (String × α) keyLe :=
  ⟨fun p q => lexLe_total p.1.data q.1.data⟩

instance keyLeTrans {α : Type} : IsTrans (String × α) keyLe :=
  ⟨fun _ _ _ h1 h2 => lexLe_trans _ _ _ h1 h2⟩

/-- JavaScript own-property enumeration order (ECMAScript
`OrdinaryOwnPropertyKeys`, as used by `Object.keys`, `Object.entries`,
spread, and `JSON.stringify`): array-index keys first in ascending numeric
order, then the remaining keys in insertion order. -/
def jsOrderEntries {α : Type} (l : List (String × α)) : List (String × α) :=
  List.insertionSort idxLe (l.filter (fun p => isArrayIndex p.1)) ++
    l.filter (fun p => !isArrayIndex p.1)

/-- JSON string escaping as performed by `JSON.stringify`. -/
def escapeChar (c : Char) : List Char :=
  if c == '"' then ['\\', '"']
  else if c == '\\' then ['\\', '\\']
  else if c == Char.ofNat 8 then ['\\', 'b']
  else if c == Char.ofNat 9 then ['\\', 't']
  else if c == Char.ofNat 10 then ['\\', 'n']
  else if c == Char.ofNat 12 then ['\\', 'f']
  else if c == Char.ofNat 13 then ['\\', 'r']
  else if c.toNat < 32 then ['\\', 'u', '0', '0', hexDigit (c.toNat / 16), hexDigit (c.toNat % 16)]
  else [c]

/-- A double-quoted JSON string literal. -/
def quoteString (s : String) : String :=
  "\"" ++ String.mk (s.data.foldr (fun c acc => escapeChar c ++ acc) []) ++ "\""

mutual

/-- `JSON.stringify` (whitespace-free form) on structured values: object
properties are serialized in JavaScript enumeration order
(`jsOrderEntries` of the property table). -/
def stringifyJson : Json → String
  | .null => "null"
  | .bool true => "true"
  | .bool false => "false"
  | .num n => toString n
  | .str s => quoteString s
  | .arr xs => "[" ++ String.intercalate "," (stringifyList xs) ++ "]"
  | .obj l =>
    "\x7b" ++ String.intercalate ","
      ((jsOrderEntries (stringifyEntries l)).map (fun p => quoteString p.1 ++ ":" ++ p.2)) ++
      "\x7d"
termination_by structural x => x

/-- Serialize each element of a sequence, preserving order. -/
def stringifyList : List Json → List String
  | [] => []
  | x :: xs => stringifyJson x :: stringifyList xs
termination_by structural l => l

/-- Serialize each property value, keeping the key. -/
def stringifyEntries : List (String × Json) → List (String × String)
  | [] => []
  | (k, v) :: t => (k, stringifyJson v) :: stringifyEntries t
termination_by structural l => l

end

mutual

/-- `sortObjectKeys` (checksum.js line 50): recursively rebuild every
object by assigning its keys in ascending `Array.prototype.sort` (i.e.
lexicographic) order; arrays are mapped elementwise, scalars and null
returned unchanged.  Iterating `Object.keys(obj).sort()` and recursing
into each looked-up value is, for the unique-key property tables reachable
from JavaScript, the same as recursing into every value and then stably
sorting the entry list by key, which is the form used here. -/
def sortObjectKeys : Json → Json
  | .null => .null
  | .bool b => .bool b
  | .num n => .num n
  | .str s => .str s
  | .arr xs => .arr (sortList xs)
  | .obj l => .obj (List.insertionSort keyLe (sortEntries l))
termination_by structural x => x

/-- `obj.map(sortObjectKeys)` on arrays. -/
def sortList : List Json → List Json
  | [] => []
  | x :: xs => sortObjectKeys x :: sortList xs
termination_by structural l => l

/-- Recurse into each property value, keeping the key. -/
def sortEntries : List (String × Json) → List (String × Json)
  | [] => []
  | (k, v) :: t => (k, sortObjectKeys v) :: sortEntries t
termination_by structural l => l

end

/-- The property table of `{...obj}` (object spread) for each kind of
value: objects keep their properties, arrays and strings expose their
elements under array-index keys, primitives spread to no properties. -/
def spreadEntries : Json → List (String × Json)
  | .obj l => l
  | .arr xs => xs.enum.map (fun p => (toString p.1, p.2))
  | .str s => s.data.enum.map (fun p => (toString p.1, Json.str (String.mk [p.2])))
  | _ => []

/-- The always-excluded dynamic fields plus the caller's `excludeKeys`
(checksum.js line 35). -/
def dynamicFields (excludeKeys : List String) : List String :=
  ["id", "date", "modified", "guid", "link"] ++ excludeKeys

/-- The canonical string that `hashObject` hashes: spread the value,
delete the dynamic fields from the top level, recursively sort keys, and
`JSON.stringify` the result. -/
def canonicalJsonString (obj : Json) (excludeKeys : List String) : String :=
  stringifyJson (sortObjectKeys (Json.obj
    ((spreadEntries obj).filter (fun p => !(dynamicFields excludeKeys).contains p.1))))

/-- `hashObject` (checksum.js line 31): SHA-256 of the canonical string of
the value after top-level dynamic-field exclusion and recursive key
sorting. -/
def hashObject (obj : Json) (excludeKeys : List String) : String :=
  hashString (canonicalJsonString obj excludeKeys)

/-! ### Well-formedness and key-permutation equivalence -/

/-- Unique keys in a property table (JavaScript objects cannot hold two
properties with the same key). -/
def nodupKeysB : List String → Bool
  | [] => true
  | k :: t => !t.contains k && nodupKeysB t

mutual

/-- A `Json` value is the image of an actual JavaScript value: every
object's property table has pairwise-distinct keys, recursively. -/
def jsonWF : Json → Bool
  | .null => true
  | .bool _ => true
  | .num _ => true
  | .str _ => true
  | .arr xs => jsonListWF xs
  | .obj l => nodupKeysB (l.map Prod.fst) && jsonEntriesWF l
termination_by structural x => x

/-- All elements well-formed. -/
def jsonListWF : List Json → Bool
  | [] => true
  | x :: xs => jsonWF x && jsonListWF xs
termination_by structural l => l

/-- All property values well-formed. -/
def jsonEntriesWF : List (String × Json) → Bool
  | [] => true
  | (_, v) :: t => jsonWF v && jsonEntriesWF t
termination_by structural l => l

end

mutual

/-- No mapping anywhere in the value uses an array-index-style key. -/
def noIdxKeys : Json → Bool
  | .null => true
  | .bool _ => true
  | .num _ => true
  | .str _ => true
  | .arr xs => noIdxKeysList xs
  | .obj l => noIdxKeysEntries l
termination_by structural x => x

/-- No element has an array-index-style mapping key. -/
def noIdxKeysList : List Json → Bool
  | [] => true
  | x :: xs => noIdxKeys x && noIdxKeysList xs
termination_by structural l => l

/-- Keys are not array-index strings, recursively into values. -/
def noIdxKeysEntries : List (String × Json) → Bool
  | [] => true
  | (k, v) :: t => !isArrayIndex k && noIdxKeys v && noIdxKeysEntries t
termination_by structural l => l

end

mutual

/-- Two structured values that are equal up to reordering of mapping keys,
at the top level and at every nested depth: scalars and null must be
equal, sequences must agree elementwise, and the property tables of two
mappings must agree up to a permutation of entries with recursively
equivalent values. -/
inductive JsonEquiv : Json → Json → Prop where
  | null : JsonEquiv .null .null
  | bool (b : Bool) : JsonEquiv (.bool b) (.bool b)
  | num (n : Int) : JsonEquiv (.num n) (.num n)
  | str (s : String) : JsonEquiv (.str s) (.str s)
  | arr {xs ys : List Json} : JsonListEquiv xs ys → JsonEquiv (.arr xs) (.arr ys)
  | obj {l m m' : List (String × Json)} :
      JsonEntriesEquiv l m → List.Perm m m' → JsonEquiv (.obj l) (.obj m')

/-- Elementwise equivalence of sequences. -/
inductive JsonListEquiv : List Json → List Json → Prop where
  | nil : JsonListEquiv [] []
  | cons {x y : Json} {xs ys : List Json} :
      JsonEquiv x y → JsonListEquiv xs ys → JsonListEquiv (x :: xs) (y :: ys)

/-- Entrywise equivalence of property tables: same keys in the same
positions, recursively equivalent values. -/
inductive JsonEntriesEquiv : List (String × Json) → List (String × Json) → Prop where
  | nil : JsonEntriesEquiv [] []
  | cons (k : String) {v w : Json} {l m : List (String × Json)} :
      JsonEquiv v w → JsonEntriesEquiv l m → JsonEntriesEquiv ((k, v) :: l) ((k, w) :: m)

end

/-! ### Spec-modelled canonical serialization (for the refinement claim)

The specification describes the canonical string as serializing every
mapping "where key order is exactly the sorted order", sequences in
element order, scalars unchanged.  The following serializer follows those
words directly (pure ascending lexicographic key order, no JavaScript
integer-key reordering), to be compared against what the code hashes. -/

mutual

/-- Serializer following the specification text: every mapping's
properties appear in exactly ascending lexicographic key order. -/
def specCanonical : Json → String
  | .null => "null"
  | .bool true => "true"
  | .bool false => "false"
  | .num n => toString n
  | .str s => quoteString s
  | .arr xs => "[" ++ String.intercalate "," (specCanonicalList xs) ++ "]"
  | .obj l =>
    "\x7b" ++ String.intercalate ","
      ((List.insertionSort keyLe (specCanonicalEntries l)).map
        (fun p => quoteString p.1 ++ ":" ++ p.2)) ++ "\x7d"
termination_by structural x => x

/-- Spec serialization of each element of a sequence, in order. -/
def specCanonicalList : List Json → List String
  | [] => []
  | x :: xs => specCanonical x :: specCanonicalList xs
termination_by structural l => l

/-- Spec serialization of each property value, keeping the key. -/
def specCanonicalEntries : List (String × Json) → List (String × String)
  | [] => []
  | (k, v) :: t => (k, specCanonical v) :: specCanonicalEntries t
termination_by structural l => l

end

/-! ### Digest sets (`generateChecksums`) and the differ (`compareChecksums`) -/

/-- One entry of a directory listing: name, regular-file flag
(`stat.isFile()`), and content bytes. -/
structure DirEntry where
  name : String
  isFile : Bool
  bytes : List Nat

/-- A read-only snapshot of a content bundle directory, as observed by
`generateChecksums` through its file-system reads: the optional
`body.html` bytes, the optional parsed `metadata.json`, the root
directory listing, and the optional `media/` subdirectory listing. -/
structure ContentDir where
  body : Option (List Nat)
  metadata : Option Json
  listing : List DirEntry
  media : Option (List DirEntry)

/-- A checksums record (DigestSet): `files`/`media` are property tables
mapping filename to digest, kept in insertion order; `media` (and, for
arbitrary differ inputs, `files`) may be absent. -/
structure ChecksumSet where
  version : Nat
  generated : String
  files : Option (List (String × String))
  media : Option (List (String × String))
  combined : String

/-- `JSON.stringify` of a filename-to-digest table (a JavaScript object
with string values), in JavaScript property-enumeration order. -/
def stableSerializeMap (m : List (String × String)) : String :=
  stringifyJson (Json.obj (m.map (fun p => (p.1, Json.str p.2))))

/-- The three reserved filenames excluded from auxiliary scanning. -/
def reservedNames : List String := ["metadata.json", "media-mapping.json", "checksums.json"]

/-- `generateChecksums` (checksum.js line 71), over a directory snapshot:
hash `body.html` bytes, hash parsed `metadata.json` via `hashObject` with
no extra exclusions, hash every other root `.json` regular file as bytes,
hash every regular file of `media/` (the `media` table existing exactly
when the subdirectory does), then derive `combined` from the
serializations of `files` and of `media || {}`. -/
def generateChecksums (contentDir : ContentDir) (now : String) : ChecksumSet :=
  let files0 : List (String × String) :=
    match contentDir.body with
    | some b => [("body.html", hashFileBytes b)]
    | none => []
  let files1 : List (String × String) :=
    match contentDir.metadata with
    | some m => files0 ++ [("metadata.json", hashObject m [])]
    | none => files0
  let files2 : List (String × String) := files1 ++
    ((contentDir.listing.filter (fun e =>
        e.name.endsWith ".json" && !reservedNames.contains e.name && e.isFile)).map
      (fun e => (e.name, hashFileBytes e.bytes)))
  let media : Option (List (String × String)) := contentDir.media.map
    (fun es => (es.filter (fun e => e.isFile)).map (fun e => (e.name, hashFileBytes e.bytes)))
  let combined : String :=
    hashString (stableSerializeMap files2 ++ stableSerializeMap (media.getD []))
  ⟨1, now, some files2, media, combined⟩

/-- A change-detection result; the `details` object of the source is
flattened into the `files` and `media` fields. -/
structure DiffResult where
  changed : Bool
  reason : String
  files : List String
  media : List String
deriving DecidableEq

/-- JavaScript truthiness test on a looked-up digest: `!remoteMedia[file]`
holds when the property is absent (`undefined`) or its value is the empty
string. -/
def falsyDigest : Option String → Bool
  | none => true
  | some s => s == ""

/-- `compareChecksums` (checksum.js line 150): absent remote set → changed
with reason `no-remote-checksums`; equal `combined` → unchanged fast path;
otherwise compare every fresh file against the remote table, compare every
fresh media entry, then re-scan fresh media for entries falsy on the
remote side, de-duplicating against the already collected list. -/
def compareChecksums (exportChecksums : ChecksumSet) (remoteChecksums : Option ChecksumSet) :
    DiffResult :=
  match remoteChecksums with
  | none => ⟨true, "no-remote-checksums", [], []⟩
  | some remote =>
    if exportChecksums.combined == remote.combined then
      ⟨false, "combined-match", [], []⟩
    else
      let exportFiles := exportChecksums.files.getD []
      let remoteFiles := remote.files.getD []
      let changedFiles := ((jsOrderEntries exportFiles).filter
        (fun p => !(remoteFiles.lookup p.1 == some p.2))).map Prod.fst
      let exportMedia := exportChecksums.media.getD []
      let remoteMedia := remote.media.getD []
      let changedMedia0 := ((jsOrderEntries exportMedia).filter
        (fun p => !(remoteMedia.lookup p.1 == some p.2))).map Prod.fst
      let changedMedia := (jsOrderEntries exportMedia).foldl
        (fun acc p =>
          if falsyDigest (remoteMedia.lookup p.1) && !acc.contains p.1 then acc ++ [p.1]
          else acc)
        changedMedia0
      let changed := !changedFiles.isEmpty || !changedMedia.isEmpty
      ⟨changed, if changed then "content-changed" else "match", changedFiles, changedMedia⟩

/-! ### Map forms of the entrywise recursions, and sort/map commutation -/

theorem sortEntries_eq_map (l : List (String × Json)) :
    sortEntries l = l.map (fun p => (p.1, sortObjectKeys p.2)) := by
  induction l with
  | nil => rfl
  | cons x xs ih => cases x; simp [sortEntries, ih]

theorem stringifyEntries_eq_map (l : List (String × Json)) :
    stringifyEntries l = l.map (fun p => (p.1, stringifyJson p.2)) := by
  induction l with
  | nil => rfl
  | cons x xs ih => cases x; simp [stringifyEntries, ih]

theorem specCanonicalEntries_eq_map (l : List (String × Json)) :
    specCanonicalEntries l = l.map (fun p => (p.1, specCanonical p.2)) := by
  induction l with
  | nil => rfl
  | cons x xs ih => cases x; simp [specCanonicalEntries, ih]

theorem orderedInsert_keyLe_mapSnd {α β : Type} (f : α → β) (a : String × α) :
    ∀ l : List (String × α),
      List.orderedInsert keyLe (a.1, f a.2) (l.map (fun p => (p.1, f p.2))) =
        (List.orderedInsert keyLe a l).map (fun p => (p.1, f p.2)) := by
  intro l
  induction l with
  | nil => rfl
  | cons b bs ih =>
    simp only [List.map_cons, List.orderedInsert]
    by_cases h : keyLe a b
    · rw [if_pos h, if_pos (show keyLe (a.1, f a.2) (b.1, f b.2) from h)]
      simp
    · rw [if_neg h, if_neg (show ¬ keyLe (a.1, f a.2) (b.1, f b.2) from h)]
      simp only [List.map_cons, ih]

theorem insertionSort_keyLe_mapSnd {α β : Type} (f : α → β) :
    ∀ l : List (String × α),
      List.insertionSort keyLe (l.map (fun p => (p.1, f p.2))) =
        (List.insertionSort keyLe l).map (fun p => (p.1, f p.2)) := by
  intro l
  induction l with
  | nil => rfl
  | cons b bs ih =>
    simp only [List.map_cons, List.insertionSort, ih]
    exact orderedInsert_keyLe_mapSnd f b (List.insertionSort keyLe bs)

theorem jsOrderEntries_eq_self {α : Type} (l : List (String × α))
    (h : ∀ p ∈ l, isArrayIndex p.1 = false) : jsOrderEntries l = l := by
  unfold jsOrderEntries
  have h1 : l.filter (fun p => isArrayIndex p.1) = [] :=
    List.filter_eq_nil_iff.mpr (by intro p hp; simp [h p hp])
  have h2 : l.filter (fun p => !isArrayIndex p.1) = l :=
    List.filter_eq_self.mpr (by intro p hp; simp [h p hp])
  rw [h1, h2]
  rfl

theorem noIdxKeysEntries_spec {l : List (String × Json)} (h : noIdxKeysEntries l = true) :
    ∀ p ∈ l, isArrayIndex p.1 = false ∧ noIdxKeys p.2 = true := by
  induction l with
  | nil => intro p hp; cases hp
  | cons x xs ih =>
    intro p hp
    cases x with
    | mk k v =>
      simp only [noIdxKeysEntries, Bool.and_eq_true, Bool.not_eq_true'] at h
      cases hp with
      | head => exact ⟨h.1.1, h.1.2⟩
      | tail _ hp => exact ih h.2 p hp

/-! ### Key-permutation invariance of the canonicalizer -/

theorem nodupKeysB_nodup : ∀ {ks : List String}, nodupKeysB ks = true → ks.Nodup := by
  intro ks
  induction ks with
  | nil => intro _; exact List.nodup_nil
  | cons k t ih =>
    intro h
    simp only [nodupKeysB, Bool.and_eq_true, Bool.not_eq_true'] at h
    refine List.nodup_cons.mpr ⟨?_, ih h.2⟩
    simpa [List.elem_iff] using h.1

theorem listWF_mem {xs : List Json} (h : jsonListWF xs = true) :
    ∀ x ∈ xs, jsonWF x = true := by
  induction xs with
  | nil => intro x hx; cases hx
  | cons a t ih =>
    intro x hx
    simp only [jsonListWF, Bool.and_eq_true] at h
    cases hx with
    | head => exact h.1
    | tail _ hx => exact ih h.2 x hx

theorem entriesWF_mem {l : List (String × Json)} (h : jsonEntriesWF l = true) :
    ∀ p ∈ l, jsonWF p.2 = true := by
  induction l with
  | nil => intro p hp; cases hp
  | cons a t ih =>
    intro p hp
    cases a with
    | mk k v =>
      simp only [jsonEntriesWF, Bool.and_eq_true] at h
      cases hp with
      | head => exact h.1
      | tail _ hp => exact ih h.2 p hp

theorem entriesEquiv_keys :
    ∀ (l m : List (String × Json)), JsonEntriesEquiv l m →
      l.map Prod.fst = m.map Prod.fst := by
  intro l
  induction l with
  | nil => intro m h; cases h; rfl
  | cons a t ih =>
    intro m h
    cases h with
    | cons k hv ht => simp [ih _ ht]

theorem entriesEquiv_filter (Q : String → Bool) :
    ∀ (l m : List (String × Json)), JsonEntriesEquiv l m →
      JsonEntriesEquiv (l.filter (fun p => Q p.1)) (m.filter (fun p => Q p.1)) := by
  intro l
  induction l with
  | nil => intro m h; cases h; exact JsonEntriesEquiv.nil
  | cons a t ih =>
    intro m h
    cases h with
    | cons k hv ht =>
      simp only [List.filter_cons]
      by_cases hq : Q k = true
      · rw [if_pos hq, if_pos hq]
        exact JsonEntriesEquiv.cons k hv (ih _ ht)
      · rw [if_neg hq, if_neg hq]
        exact ih _ ht

theorem mem_enumFrom_snd : ∀ (xs : List Json) (i : Nat) (p : Nat × Json),
    p ∈ xs.enumFrom i → p.2 ∈ xs := by
  intro xs
  induction xs with
  | nil => intro i p hp; cases hp
  | cons a t ih =>
    intro i p hp
    cases hp with
    | head => exact List.mem_cons_self a t
    | tail _ hp => exact List.mem_cons_of_mem a (ih (i + 1) p hp)

theorem entriesEquiv_enumMap :
    ∀ (xs ys : List Json), JsonListEquiv xs ys → ∀ i : Nat,
      JsonEntriesEquiv ((xs.enumFrom i).map (fun p => (toString p.1, p.2)))
        ((ys.enumFrom i).map (fun p => (toString p.1, p.2))) := by
  intro xs
  induction xs with
  | nil => intro ys h i; cases h; exact JsonEntriesEquiv.nil
  | cons a t ih =>
    intro ys h i
    cases h with
    | cons hx ht =>
      exact JsonEntriesEquiv.cons (toString i) hx (ih _ ht (i + 1))

theorem sortList_eq_of_equiv_aux :
    ∀ (xs ys : List Json), JsonListEquiv xs ys →
      (∀ x ∈ xs, ∀ y, JsonEquiv x y → sortObjectKeys x = sortObjectKeys y) →
      sortList xs = sortList ys := by
  intro xs
  induction xs with
  | nil => intro ys h _; cases h; rfl
  | cons a t ih =>
    intro ys h hpt
    cases h with
    | cons hx ht =>
      simp only [sortList]
      rw [hpt a (List.mem_cons_self a t) _ hx,
        ih _ ht (fun x hx2 y hy => hpt x (List.mem_cons_of_mem a hx2) y hy)]

theorem sortEntries_eq_of_equiv_aux :
    ∀ (l m : List (String × Json)), JsonEntriesEquiv l m →
      (∀ p ∈ l, ∀ y, JsonEquiv p.2 y → sortObjectKeys p.2 = sortObjectKeys y) →
      sortEntries l = sortEntries m := by
  intro l
  induction l with
  | nil => intro m h _; cases h; rfl
  | cons a t ih =>
    intro m h hpt
    cases h with
    | cons k hv ht =>
      simp only [sortEntries]
      rw [hpt (k, _) (List.mem_cons_self _ t) _ hv,
        ih _ ht (fun p hp y hy => hpt p (List.mem_cons_of_mem _ hp) y hy)]

theorem sorted_perm_nodupKeys_eq {α : Type} :
    ∀ (L M : List (String × α)), List.Perm L M → List.Sorted keyLe L →
      List.Sorted keyLe M → (L.map Prod.fst).Nodup → L = M := by
  intro L
  induction L with
  | nil =>
    intro M hp _ _ _
    exact (hp.symm.eq_nil).symm
  | cons p L' ih =>
    intro M hp hsL hsM hnd
    cases M with
    | nil => cases hp.eq_nil
    | cons q M' =>
      by_cases hpq : p = q
      · subst hpq
        rw [List.map_cons] at hnd
        rw [ih M' hp.cons_inv (List.sorted_cons.mp hsL).2 (List.sorted_cons.mp hsM).2
          (List.nodup_cons.mp hnd).2]
      · exfalso
        have hpM : p ∈ q :: M' := hp.mem_iff.mp (List.mem_cons_self p L')
        have hpM' : p ∈ M' := by
          cases hpM with
          | head => exact absurd rfl hpq
          | tail _ hx => exact hx
        have hqL : q ∈ p :: L' := hp.symm.mem_iff.mp (List.mem_cons_self q M')
        have hqL' : q ∈ L' := by
          cases hqL with
          | head => exact absurd rfl (fun hh => hpq hh.symm)
          | tail _ hx => exact hx
        have h1 : keyLe p q := (List.sorted_cons.mp hsL).1 q hqL'
        have h2 : keyLe q p := (List.sorted_cons.mp hsM).1 p hpM'
        have hk : p.1 = q.1 := strLe_antisymm h1 h2
        have hmem : q.1 ∈ L'.map Prod.fst := List.mem_map_of_mem Prod.fst hqL'
        rw [List.map_cons] at hnd
        exact (List.nodup_cons.mp hnd).1 (hk ▸ hmem)

theorem sortObj_entriesEquiv (l m : List (String × Json)) (hent : JsonEntriesEquiv l m)
    (hpt : ∀ p ∈ l, ∀ y, JsonEquiv p.2 y → sortObjectKeys p.2 = sortObjectKeys y) :
    sortObjectKeys (Json.obj l) = sortObjectKeys (Json.obj m) := by
  simp only [sortObjectKeys]
  rw [sortEntries_eq_of_equiv_aux l m hent hpt]

theorem sortObjectKeys_obj_perm (m m' : List (String × Json)) (hperm : List.Perm m m')
    (hnd : (m.map Prod.fst).Nodup) :
    sortObjectKeys (Json.obj m) = sortObjectKeys (Json.obj m') := by
  simp only [sortObjectKeys]
  congr 1
  have hp : List.Perm (sortEntries m) (sortEntries m') := by
    rw [sortEntries_eq_map, sortEntries_eq_map]
    exact hperm.map _
  apply sorted_perm_nodupKeys_eq
  · exact (List.perm_insertionSort keyLe _).trans
      (hp.trans (List.perm_insertionSort keyLe _).symm)
  · exact List.sorted_insertionSort keyLe _
  · exact List.sorted_insertionSort keyLe _
  · have hfst : Prod.fst ∘ (fun p : String × Json => (p.1, sortObjectKeys p.2)) = Prod.fst :=
      funext (fun p => rfl)
    have h1 : ((sortEntries m).map Prod.fst).Nodup := by
      rw [sortEntries_eq_map, List.map_map, hfst]
      exact hnd
    exact (((List.perm_insertionSort keyLe (sortEntries m)).map Prod.fst).symm).nodup h1

theorem sortObjectKeys_equiv_aux :
    ∀ (n : Nat) (v w : Json), sizeOf v ≤ n → jsonWF v = true → JsonEquiv v w →
      sortObjectKeys v = sortObjectKeys w := by
  intro n
  induction n using Nat.strong_induction_on with
  | _ n ih =>
    intro v w hs hwf h
    cases h with
    | null => rfl
    | bool b => rfl
    | num n1 => rfl
    | str s => rfl
    | @arr xs ys hxs =>
      simp only [sortObjectKeys]
      congr 1
      apply sortList_eq_of_equiv_aux _ _ hxs
      intro x hx y hy
      have h1 : sizeOf x < sizeOf xs := List.sizeOf_lt_of_mem hx
      have h2 : sizeOf (Json.arr xs) = 1 + sizeOf xs := by simp
      exact ih (sizeOf x) (by omega) x y le_rfl
        (listWF_mem (by simpa [jsonWF] using hwf) x hx) hy
    | @obj l m m' hent hperm =>
      have hwf2 := (Bool.and_eq_true _ _).mp (by simpa only [jsonWF] using hwf)
      have hnd_l : (l.map Prod.fst).Nodup := nodupKeysB_nodup hwf2.1
      have hnd_m : (m.map Prod.fst).Nodup := entriesEquiv_keys _ _ hent ▸ hnd_l
      have hpt : ∀ p ∈ l, ∀ y, JsonEquiv p.2 y → sortObjectKeys p.2 = sortObjectKeys y := by
        intro p hp y hy
        have h1 : sizeOf p < sizeOf l := List.sizeOf_lt_of_mem hp
        have h2 : sizeOf p.2 < sizeOf p := by
          cases p with
          | mk a b =>
            simp only [Prod.mk.sizeOf_spec]
            omega
        have h3 : sizeOf (Json.obj l) = 1 + sizeOf l := by simp
        exact ih (sizeOf p.2) (by omega) p.2 y le_rfl (entriesWF_mem hwf2.2 p hp) hy
      exact (sortObj_entriesEquiv l m hent hpt).trans
        (sortObjectKeys_obj_perm m m' hperm hnd_m)

theorem sortObjectKeys_equiv (v w : Json) (hwf : jsonWF v = true) (h : JsonEquiv v w) :
    sortObjectKeys v = sortObjectKeys w :=
  sortObjectKeys_equiv_aux (sizeOf v) v w le_rfl hwf h

theorem canonicalString_equiv (v w : Json) (excludeKeys : List String)
    (hwf : jsonWF v = true) (h : JsonEquiv v w) :
    canonicalJsonString v excludeKeys = canonicalJsonString w excludeKeys := by
  unfold canonicalJsonString
  congr 1
  cases h with
  | null => rfl
  | bool b => rfl
  | num n1 => rfl
  | str s => rfl
  | @arr xs ys hxs =>
    simp only [spreadEntries]
    apply sortObj_entriesEquiv
    · exact entriesEquiv_filter (fun k => !(dynamicFields excludeKeys).contains k) _ _
        (entriesEquiv_enumMap xs ys hxs 0)
    · intro p hp y hy
      have hp1 : p ∈ (xs.enumFrom 0).map (fun q => (toString q.1, q.2)) :=
        (List.mem_filter.mp hp).1
      rcases List.mem_map.mp hp1 with ⟨q, hq, hqe⟩
      have hq2 : q.2 ∈ xs := mem_enumFrom_snd xs 0 q hq
      have hwfp : jsonWF p.2 = true := by
        rw [← hqe]
        exact listWF_mem (by simpa [jsonWF] using hwf) q.2 hq2
      exact sortObjectKeys_equiv p.2 y hwfp hy
  | @obj l m m' hent hperm =>
    simp only [spreadEntries]
    have hwf2 := (Bool.and_eq_true _ _).mp (by simpa only [jsonWF] using hwf)
    have hnd_l : (l.map Prod.fst).Nodup := nodupKeysB_nodup hwf2.1
    have hnd_m : (m.map Prod.fst).Nodup := entriesEquiv_keys _ _ hent ▸ hnd_l
    have hstep1 : sortObjectKeys (Json.obj (l.filter
        (fun p => !(dynamicFields excludeKeys).contains p.1))) =
        sortObjectKeys (Json.obj (m.filter
          (fun p => !(dynamicFields excludeKeys).contains p.1))) := by
      apply sortObj_entriesEquiv
      · exact entriesEquiv_filter (fun k => !(dynamicFields excludeKeys).contains k) _ _ hent
      · intro p hp y hy
        exact sortObjectKeys_equiv p.2 y
          (entriesWF_mem hwf2.2 p (List.mem_filter.mp hp).1) hy
    have hstep2 : sortObjectKeys (Json.obj (m.filter
        (fun p => !(dynamicFields excludeKeys).contains p.1))) =
        sortObjectKeys (Json.obj (m'.filter
          (fun p => !(dynamicFields excludeKeys).contains p.1))) := by
      apply sortObjectKeys_obj_perm
      · exact hperm.filter _
      · exact hnd_m.sublist ((List.filter_sublist m).map Prod.fst)
    exact hstep1.trans hstep2

/-! ### The canonical string versus the specification's serializer -/

mutual

/-- For values none of whose mappings use an array-index key, the string
the code builds (`JSON.stringify` of `sortObjectKeys`) agrees with the
specification's serializer (keys in exactly ascending lexicographic
order). -/
theorem stringifySort_eq_spec (v : Json) (h : noIdxKeys v = true) :
    stringifyJson (sortObjectKeys v) = specCanonical v := by
  cases v with
  | null => rfl
  | bool b => cases b <;> rfl
  | num n => rfl
  | str s => rfl
  | arr xs =>
    have hxs : noIdxKeysList xs = true := by simpa [noIdxKeys] using h
    simp only [sortObjectKeys, stringifyJson, specCanonical]
    rw [stringifySortList_eq_spec xs hxs]
  | obj l =>
    have hl : noIdxKeysEntries l = true := by simpa [noIdxKeys] using h
    simp only [sortObjectKeys, stringifyJson, specCanonical]
    have hcomm : stringifyEntries (List.insertionSort keyLe (sortEntries l)) =
        List.insertionSort keyLe (stringifyEntries (sortEntries l)) := by
      rw [stringifyEntries_eq_map, stringifyEntries_eq_map,
        insertionSort_keyLe_mapSnd stringifyJson (sortEntries l)]
    have hentries : stringifyEntries (sortEntries l) = specCanonicalEntries l :=
      stringifySortEntries_eq_spec l hl
    rw [hcomm, hentries, jsOrderEntries_eq_self]
    intro p hp
    have hp' : p ∈ specCanonicalEntries l := (List.mem_insertionSort keyLe).mp hp
    rw [specCanonicalEntries_eq_map] at hp'
    rcases List.mem_map.mp hp' with ⟨q, hq, hqe⟩
    rw [← hqe]
    exact (noIdxKeysEntries_spec hl q hq).1

/-- Elementwise version for sequences. -/
theorem stringifySortList_eq_spec (xs : List Json) (h : noIdxKeysList xs = true) :
    stringifyList (sortList xs) = specCanonicalList xs := by
  cases xs with
  | nil => rfl
  | cons x t =>
    simp only [noIdxKeysList, Bool.and_eq_true] at h
    simp only [sortList, stringifyList, specCanonicalList]
    rw [stringifySort_eq_spec x h.1, stringifySortList_eq_spec t h.2]

/-- Entrywise version for property tables. -/
theorem stringifySortEntries_eq_spec (l : List (String × Json))
    (h : noIdxKeysEntries l = true) :
    stringifyEntries (sortEntries l) = specCanonicalEntries l := by
  cases l with
  | nil => rfl
  | cons x t =>
    cases x with
    | mk k v =>
      simp only [noIdxKeysEntries, Bool.and_eq_true] at h
      simp only [sortEntries, stringifyEntries, specCanonicalEntries]
      rw [stringifySort_eq_spec v h.1.2, stringifySortEntries_eq_spec t h.2]

end

/-! ### Lemmas about enumeration order and the differ -/

theorem jsOrderEntries_perm {α : Type} (l : List (String × α)) :
    List.Perm (jsOrderEntries l) l := by
  unfold jsOrderEntries
  exact ((List.perm_insertionSort idxLe _).append_right _).trans
    (List.filter_append_perm (fun p => isArrayIndex p.1) l)

theorem changedList_mem {pred : String × String → Bool} {L : List (String × String)}
    {f : String} (h : f ∈ ((jsOrderEntries L).filter pred).map Prod.fst) :
    f ∈ L.map Prod.fst := by
  rcases List.mem_map.mp h with ⟨p, hp, hf⟩
  have hL : p ∈ L := (jsOrderEntries_perm L).mem_iff.mp (List.mem_filter.mp hp).1
  exact hf ▸ List.mem_map_of_mem Prod.fst hL

theorem changedList_nodup {pred : String × String → Bool} {L : List (String × String)}
    (h : (L.map Prod.fst).Nodup) :
    (((jsOrderEntries L).filter pred).map Prod.fst).Nodup := by
  have hperm : (jsOrderEntries L).map Prod.fst |>.Nodup :=
    (((jsOrderEntries_perm L).map Prod.fst).symm).nodup h
  exact hperm.sublist ((List.filter_sublist _).map Prod.fst)

theorem foldl_dedup_mem (R : List (String × String)) :
    ∀ (l : List (String × String)) (acc : List String) (f : String),
      f ∈ l.foldl (fun acc p =>
        if falsyDigest (R.lookup p.1) && !acc.contains p.1 then acc ++ [p.1] else acc) acc →
      f ∈ acc ∨ f ∈ l.map Prod.fst := by
  intro l
  induction l with
  | nil => intro acc f h; exact Or.inl h
  | cons x xs ih =>
    intro acc f h
    rw [List.foldl_cons] at h
    rcases ih _ f h with h' | h'
    · rcases Decidable.em
        ((falsyDigest (R.lookup x.1) && !acc.contains x.1) = true) with hc | hc
      · rw [if_pos hc] at h'
        rcases List.mem_append.mp h' with h'' | h''
        · exact Or.inl h''
        · right
          rw [List.mem_singleton.mp h'']
          exact List.mem_map_of_mem Prod.fst (List.mem_cons_self x xs)
      · rw [if_neg hc] at h'
        exact Or.inl h'
    · right
      rw [List.map_cons]
      exact List.mem_cons_of_mem _ h'

theorem foldl_dedup_nodup (R : List (String × String)) :
    ∀ (l : List (String × String)) (acc : List String), acc.Nodup →
      (l.foldl (fun acc p =>
        if falsyDigest (R.lookup p.1) && !acc.contains p.1 then acc ++ [p.1] else acc)
        acc).Nodup := by
  intro l
  induction l with
  | nil => intro acc h; exact h
  | cons x xs ih =>
    intro acc h
    rw [List.foldl_cons]
    apply ih
    rcases Decidable.em
      ((falsyDigest (R.lookup x.1) && !acc.contains x.1) = true) with hc | hc
    · rw [if_pos hc]
      have hx : x.1 ∉ acc := by
        have := (Bool.and_eq_true _ _).mp hc |>.2
        simpa [List.elem_iff] using this
      have hp : List.Perm (acc ++ [x.1]) (x.1 :: acc) := List.perm_append_comm
      exact (hp.symm).nodup (List.nodup_cons.mpr ⟨hx, h⟩)
    · rw [if_neg hc]
      exact h

theorem foldl_dedup_no_new (R : List (String × String)) :
    ∀ (l : List (String × String)) (acc : List String),
      (∀ p ∈ l, falsyDigest (R.lookup p.1) = false) →
      l.foldl (fun acc p =>
        if falsyDigest (R.lookup p.1) && !acc.contains p.1 then acc ++ [p.1] else acc)
        acc = acc := by
  intro l
  induction l with
  | nil => intro acc _; rfl
  | cons x xs ih =>
    intro acc h
    rw [List.foldl_cons]
    have hx : falsyDigest (R.lookup x.1) = false := h x (List.mem_cons_self x xs)
    rw [if_neg (by simp [hx])]
    exact ih acc (fun p hp => h p (List.mem_cons_of_mem x hp))

/-! ### Claim theorems -/

/-- C3 counterexample: at the value `{"10": 1, "2": 2}` the canonical
string that `hashObject` hashes orders the array-index keys numerically
(`"2"` before `"10"`, the JavaScript object property order), not in the
ascending lexicographic order (`"10"` before `"2"`) that the claim
demands, as witnessed by the specification-following serializer. -/
theorem claim_C3_counterexample :
    canonicalJsonString (Json.obj [("10", Json.num 1), ("2", Json.num 2)]) [] =
        "\x7b\"2\":2,\"10\":1\x7d" ∧
      specCanonical (Json.obj [("10", Json.num 1), ("2", Json.num 2)]) =
        "\x7b\"10\":1,\"2\":2\x7d" ∧
      canonicalJsonString (Json.obj [("10", Json.num 1), ("2", Json.num 2)]) [] ≠
        specCanonical (Json.obj [("10", Json.num 1), ("2", Json.num 2)]) :=
  ⟨by decide, by decide, by decide⟩

/-- C3 amended: the canonical string serializes every mapping's keys in
ascending lexicographic order **except** array-index keys (canonical
decimal strings below `2^32 - 1`), which JavaScript objects reorder first
in ascending numeric order.  First conjunct: for every value none of whose
mapping keys is an array-index string (after top-level exclusion), the
string `hashObject` hashes is exactly the specification's serializer
output — mappings in ascending lexicographic key order at every depth,
sequences in element order, scalars unchanged.  Second conjunct: the
integer-like-key behaviour at the counterexample's value. -/
theorem claim_C3_amended :
    (∀ (v : Json) (excludeKeys : List String),
        noIdxKeys (Json.obj ((spreadEntries v).filter
          (fun p => !(dynamicFields excludeKeys).contains p.1))) = true →
        canonicalJsonString v excludeKeys =
          specCanonical (Json.obj ((spreadEntries v).filter
            (fun p => !(dynamicFields excludeKeys).contains p.1)))) ∧
      canonicalJsonString (Json.obj [("10", Json.num 1), ("2", Json.num 2)]) [] =
        "\x7b\"2\":2,\"10\":1\x7d" :=
  ⟨fun _ _ h => stringifySort_eq_spec _ h, by decide⟩

/-- Witness for C3's amended theorem at a concrete nested value with
non-index keys. -/
theorem claim_C3_amended_witness :
    noIdxKeys (Json.obj ((spreadEntries (Json.obj [("b", Json.null),
        ("a", Json.obj [("d", Json.num 1), ("c", Json.num 2)])])).filter
      (fun p => !(dynamicFields []).contains p.1))) = true ∧
      canonicalJsonString (Json.obj [("b", Json.null),
          ("a", Json.obj [("d", Json.num 1), ("c", Json.num 2)])]) [] =
        specCanonical (Json.obj ((spreadEntries (Json.obj [("b", Json.null),
            ("a", Json.obj [("d", Json.num 1), ("c", Json.num 2)])])).filter
          (fun p => !(dynamicFields []).contains p.1))) :=
  ⟨by decide,
    claim_C3_amended.1 (Json.obj [("b", Json.null),
      ("a", Json.obj [("d", Json.num 1), ("c", Json.num 2)])]) [] (by decide)⟩

/-- C4: every DigestSet returned by `generateChecksums` has
`combined = digestOfText(stableSerialize(files) + stableSerialize(media or {}))`,
with `stableSerialize` the plain (non-canonicalizing) `JSON.stringify` and
an absent media mapping serializing as the empty object — `combined` is
always derived from the final `files` and `media` tables. -/
theorem claim_C4 (contentDir : ContentDir) (now : String) :
    (generateChecksums contentDir now).combined =
      hashString (stableSerializeMap ((generateChecksums contentDir now).files.getD []) ++
        stableSerializeMap ((generateChecksums contentDir now).media.getD [])) := by
  simp only [generateChecksums, Option.getD_some]

/-- C5: whenever the fresh and stored sets have equal `combined` digests,
`compareChecksums` returns exactly
`{changed: false, reason: 'combined-match', details: {files: [], media: []}}`,
whatever the two `files`/`media` tables contain (in particular for tables
built in different insertion orders). -/
theorem claim_C5 (freshSet storedSet : ChecksumSet)
    (h : freshSet.combined = storedSet.combined) :
    compareChecksums freshSet (some storedSet) = ⟨false, "combined-match", [], []⟩ := by
  simp [compareChecksums, h]

/-- Witness for C5 at concrete sets whose `files` tables hold the same
entries in different insertion orders. -/
theorem claim_C5_witness :
    compareChecksums
        ⟨1, "g1", some [("a.json", "h1"), ("b.json", "h2")], none, "cc"⟩
        (some ⟨1, "g2", some [("b.json", "h2"), ("a.json", "h1")], none, "cc"⟩) =
      ⟨false, "combined-match", [], []⟩ :=
  claim_C5 ⟨1, "g1", some [("a.json", "h1"), ("b.json", "h2")], none, "cc"⟩
    ⟨1, "g2", some [("b.json", "h2"), ("a.json", "h1")], none, "cc"⟩ rfl

/-- C6: comparing a fresh set against an absent stored set returns exactly
`{changed: true, reason: no-remote-digest, details: {files: [], media: []}}`
(the spec's `no-remote-digest` enum member is the code's
`'no-remote-checksums'` string); the absent case is handled before any
other comparison and never fails. -/
theorem claim_C6 (freshSet : ChecksumSet) :
    compareChecksums freshSet none = ⟨true, "no-remote-checksums", [], []⟩ := rfl

/-- C9: `hashString` equals the byte-level digest (`hashFile`'s hashing)
applied to the UTF-8 encoding of the string, for every string; moreover
the embedded hash matches SHA-256 on the standard `"abc"` test vector. -/
theorem claim_C9 :
    (∀ t : String, hashString t = hashFileBytes (utf8Bytes t)) ∧
      hashString "abc" = "ba7816bf8f01cfea414140de5dae2223b00361a396177a9cb410ff61f20015ad" :=
  ⟨fun _ => rfl, by decide⟩

/-- C1: `hashObject` is deterministic — repeated calls on the same value
and exclusion set agree — and invariant under reordering of mapping keys
at the top level and at every nested depth: for any well-formed value
(unique keys per mapping, as every JavaScript object has) and any value
equal to it up to key permutation, the digests coincide. -/
theorem claim_C1 (v w : Json) (excludeKeys : List String) (hwf : jsonWF v = true)
    (h : JsonEquiv v w) :
    hashObject v excludeKeys = hashObject v excludeKeys ∧
      hashObject v excludeKeys = hashObject w excludeKeys :=
  ⟨rfl, congrArg hashString (canonicalString_equiv v w excludeKeys hwf h)⟩

/-- Witness for C1 at a concrete pair of objects reordered both at the top
level and inside a nested mapping. -/
theorem claim_C1_witness :
    jsonWF (Json.obj [("b", Json.num 1),
        ("a", Json.obj [("y", Json.num 2), ("x", Json.num 3)])]) = true ∧
      hashObject (Json.obj [("b", Json.num 1),
          ("a", Json.obj [("y", Json.num 2), ("x", Json.num 3)])]) [] =
        hashObject (Json.obj [("a", Json.obj [("x", Json.num 3), ("y", Json.num 2)]),
          ("b", Json.num 1)]) [] :=
  ⟨by decide,
    (claim_C1 (Json.obj [("b", Json.num 1),
        ("a", Json.obj [("y", Json.num 2), ("x", Json.num 3)])])
      (Json.obj [("a", Json.obj [("x", Json.num 3), ("y", Json.num 2)]),
        ("b", Json.num 1)])
      [] (by decide)
      (JsonEquiv.obj
        (JsonEntriesEquiv.cons "b" (JsonEquiv.num 1)
          (JsonEntriesEquiv.cons "a"
            (JsonEquiv.obj
              (JsonEntriesEquiv.cons "y" (JsonEquiv.num 2)
                (JsonEntriesEquiv.cons "x" (JsonEquiv.num 3) JsonEntriesEquiv.nil))
              (List.Perm.swap ("x", Json.num 3) ("y", Json.num 2) []))
            JsonEntriesEquiv.nil))
        (List.Perm.swap ("a", Json.obj [("x", Json.num 3), ("y", Json.num 2)])
          ("b", Json.num 1) []))).2⟩

/-- C2: `hashObject` removes `id`, `date`, `modified`, `guid`, `link` and
the caller's `excludeKeys` from the top level only.  First conjunct: two
objects whose property tables agree after deleting the excluded top-level
keys always hash identically (they may differ arbitrarily in the presence
or contents of those keys).  Second conjunct: the spec's concrete example
`{id:1, date:"x", title:"t"}` vs `{id:2, date:"y", title:"t"}`.  Third
conjunct: an `id` inside a nested mapping is not filtered — changing it
changes the digest. -/
theorem claim_C2 :
    (∀ (l l' : List (String × Json)) (excludeKeys : List String),
        l.filter (fun p => !(dynamicFields excludeKeys).contains p.1) =
          l'.filter (fun p => !(dynamicFields excludeKeys).contains p.1) →
        hashObject (Json.obj l) excludeKeys = hashObject (Json.obj l') excludeKeys) ∧
      hashObject (Json.obj [("id", Json.num 1), ("date", Json.str "x"),
          ("title", Json.str "t")]) [] =
        hashObject (Json.obj [("id", Json.num 2), ("date", Json.str "y"),
          ("title", Json.str "t")]) [] ∧
      hashObject (Json.obj [("a", Json.obj [("id", Json.num 1)])]) [] ≠
        hashObject (Json.obj [("a", Json.obj [("id", Json.num 2)])]) [] := by
  refine ⟨?_, by decide, by decide⟩
  intro l l' excludeKeys h
  simp only [hashObject, canonicalJsonString, spreadEntries, h]

/-- Witness for C2's universally quantified conjunct at concrete objects
differing only in their top-level `id`. -/
theorem claim_C2_witness :
    hashObject (Json.obj [("id", Json.num 7), ("x", Json.num 3)]) [] =
      hashObject (Json.obj [("id", Json.num 8), ("x", Json.num 3)]) [] :=
  claim_C2.1 [("id", Json.num 7), ("x", Json.num 3)] [("id", Json.num 8), ("x", Json.num 3)]
    [] (by rfl)

/-- C7: the differ is one-directional.  Every filename it reports in
`details.files` (resp. `details.media`) is a key of the fresh set's
`files` (resp. `media`) table, so entries present only in the stored set
are never reported; and when the combined digests differ but every fresh
entry matches the stored set (digests being nonempty strings, as the
fixed-length hex digests of the data model are), the result is exactly
`{changed: false, reason: 'match'}` with empty details. -/
theorem claim_C7 (freshSet storedSet : ChecksumSet) :
    (∀ f ∈ (compareChecksums freshSet (some storedSet)).files,
        f ∈ (freshSet.files.getD []).map Prod.fst) ∧
      (∀ f ∈ (compareChecksums freshSet (some storedSet)).media,
        f ∈ (freshSet.media.getD []).map Prod.fst) ∧
      (freshSet.combined ≠ storedSet.combined →
        (∀ p ∈ freshSet.files.getD [],
          (storedSet.files.getD []).lookup p.1 = some p.2) →
        (∀ p ∈ freshSet.media.getD [],
          (storedSet.media.getD []).lookup p.1 = some p.2 ∧ p.2 ≠ "") →
        compareChecksums freshSet (some storedSet) = ⟨false, "match", [], []⟩) := by
  by_cases hc : freshSet.combined = storedSet.combined
  · refine ⟨?_, ?_, ?_⟩
    · intro f hf
      simp [compareChecksums, hc] at hf
    · intro f hf
      simp [compareChecksums, hc] at hf
    · intro hne
      exact absurd hc hne
  · have hc' : ¬ ((freshSet.combined == storedSet.combined) = true) := by simpa using hc
    refine ⟨?_, ?_, ?_⟩
    · intro f hf
      simp only [compareChecksums] at hf
      rw [if_neg hc'] at hf
      exact changedList_mem hf
    · intro f hf
      simp only [compareChecksums] at hf
      rw [if_neg hc'] at hf
      rcases foldl_dedup_mem _ _ _ f hf with h | h
      · exact changedList_mem h
      · exact ((jsOrderEntries_perm _).map Prod.fst).mem_iff.mp h
    · intro _ h1 h2
      simp only [compareChecksums]
      rw [if_neg hc']
      have hcf : ((jsOrderEntries (freshSet.files.getD [])).filter
          (fun p => !((storedSet.files.getD []).lookup p.1 == some p.2))) = [] := by
        apply List.filter_eq_nil_iff.mpr
        intro p hp
        simp [h1 p ((jsOrderEntries_perm _).mem_iff.mp hp)]
      have hcm : ((jsOrderEntries (freshSet.media.getD [])).filter
          (fun p => !((storedSet.media.getD []).lookup p.1 == some p.2))) = [] := by
        apply List.filter_eq_nil_iff.mpr
        intro p hp
        simp [(h2 p ((jsOrderEntries_perm _).mem_iff.mp hp)).1]
      have hfold := foldl_dedup_no_new (storedSet.media.getD [])
        (jsOrderEntries (freshSet.media.getD []))
        (((jsOrderEntries (freshSet.media.getD [])).filter
          (fun p => !((storedSet.media.getD []).lookup p.1 == some p.2))).map Prod.fst)
        (by
          intro p hp
          have h2p := h2 p ((jsOrderEntries_perm _).mem_iff.mp hp)
          simp [falsyDigest, h2p.1, h2p.2])
      rw [hcm] at hfold
      rw [hcf, hcm, hfold]
      rfl

/-- Witness for C7's full-match consequence at concrete sets: combined
digests differ, the fresh entries all match the stored set, and the differ
reports no change with reason `match`. -/
theorem claim_C7_witness :
    compareChecksums
        ⟨1, "g1", some [("body.html", "h1")], some [("m.jpg", "h2")], "c1"⟩
        (some ⟨1, "g2", some [("body.html", "h1"), ("extra.json", "h3")],
          some [("m.jpg", "h2")], "c2"⟩) =
      ⟨false, "match", [], []⟩ :=
  (claim_C7 ⟨1, "g1", some [("body.html", "h1")], some [("m.jpg", "h2")], "c1"⟩
      ⟨1, "g2", some [("body.html", "h1"), ("extra.json", "h3")],
        some [("m.jpg", "h2")], "c2"⟩).2.2
    (by decide) (by decide) (by decide)

/-- C8: in every result of the full-comparison branch (indeed of any
comparison), each filename occurs at most once in `details.files` and at
most once in `details.media`, for fresh sets whose tables have unique keys
(JavaScript objects always do) — despite media differences being collected
by two separate passes. -/
theorem claim_C8 (freshSet storedSet : ChecksumSet)
    (hf : ((freshSet.files.getD []).map Prod.fst).Nodup)
    (hm : ((freshSet.media.getD []).map Prod.fst).Nodup) (f : String) :
    List.count f (compareChecksums freshSet (some storedSet)).files ≤ 1 ∧
      List.count f (compareChecksums freshSet (some storedSet)).media ≤ 1 := by
  by_cases hc : freshSet.combined = storedSet.combined
  · constructor
    · simp [compareChecksums, hc]
    · simp [compareChecksums, hc]
  · have hc' : ¬ ((freshSet.combined == storedSet.combined) = true) := by simpa using hc
    constructor
    · simp only [compareChecksums]
      rw [if_neg hc']
      exact List.nodup_iff_count_le_one.mp (changedList_nodup hf) f
    · simp only [compareChecksums]
      rw [if_neg hc']
      exact List.nodup_iff_count_le_one.mp
        (foldl_dedup_nodup _ _ _ (changedList_nodup hm)) f

/-- Witness for C8 at the spec's new-media scenario: `photo.jpg` present
in the fresh set, absent from the stored set, is reported exactly once. -/
theorem claim_C8_witness :
    (compareChecksums ⟨1, "g1", some [], some [("photo.jpg", "h1")], "c1"⟩
        (some ⟨1, "g2", some [], some [], "c2"⟩)).media = ["photo.jpg"] ∧
      List.count "photo.jpg"
        (compareChecksums ⟨1, "g1", some [], some [("photo.jpg", "h1")], "c1"⟩
          (some ⟨1, "g2", some [], some [], "c2"⟩)).media ≤ 1 :=
  ⟨by decide,
    (claim_C8 ⟨1, "g1", some [], some [("photo.jpg", "h1")], "c1"⟩
      ⟨1, "g2", some [], some [], "c2"⟩ (by decide) (by decide) "photo.jpg").2⟩

/-- C10: `compareChecksums` treats an absent `files` or `media` table on
either side exactly as an empty table (`|| {}` defaulting), so it is total
on such inputs. -/
theorem claim_C10 (A B : ChecksumSet) :
    compareChecksums ⟨A.version, A.generated, none, A.media, A.combined⟩ (some B) =
        compareChecksums ⟨A.version, A.generated, some [], A.media, A.combined⟩ (some B) ∧
      compareChecksums ⟨A.version, A.generated, A.files, none, A.combined⟩ (some B) =
        compareChecksums ⟨A.version, A.generated, A.files, some [], A.combined⟩ (some B) ∧
      compareChecksums A (some ⟨B.version, B.generated, none, B.media, B.combined⟩) =
        compareChecksums A (some ⟨B.version, B.generated, some [], B.media, B.combined⟩) ∧
      compareChecksums A (some ⟨B.version, B.generated, B.files, none, B.combined⟩) =
        compareChecksums A (some ⟨B.version, B.generated, B.files, some [], B.combined⟩) :=
  ⟨rfl, rfl, rfl, rfl⟩

end Checksum
